import Mathlib

/-!
Shallow embedding of the Analytics Engine of `src/main.py` (class
`NSEDataAnalyzer`), covering `get_top_gainers_losers`,
`get_52week_analysis` and `get_30day_returns`.

Modelling conventions:

* Prices and percent changes are modelled as exact rationals (`ℚ`);
  floating point rounding is abstracted away.

* A pandas `pChange` cell is either a string cell (whose content, after
  `astype(str).str.replace` removes every percent sign, either parses to a
  rational via `astype(float)` or fails to parse) or a cell that already
  holds a float.  `PCell.strCell none` models a cell whose string form does
  not parse as a float (covering an absent or unparsable percent-change
  field); `astype(float)` on a column raises as soon as any cell fails,
  which the embedding models by a column conversion returning `none`.

* `live_df["pChange"] = ...` writes the converted column back into the
  caller's DataFrame, so `get_top_gainers_losers` is modelled as returning
  the post-state of the table together with the gainers and losers.  When
  the conversion raises, the assignment never happens and the caller's
  table is unchanged; the model returns `Except.error ()` there.

* `DataFrame.sort_values(by, ascending)` is modelled (as in
  `pandas.core.sorting.nargsort`) as a stable argsort.  For
  `ascending=False` pandas reverses the values and the index array before
  the stable argsort and reverses the indexer after, so the descending
  sort also keeps rows tied on the key in their original relative order
  (stable descending sort).  The numpy argsort actually used is
  `kind='quicksort'`, which degenerates to a stable insertion sort on the
  short arrays involved here; the embedding uses the stable
  `List.insertionSort` with the ascending (respectively descending)
  comparison.

* A Python `dict` preserves insertion order and has unique keys, so the
  historical store is a `List (String × SeriesData)`; uniqueness of keys
  is a hypothesis where a theorem needs it.

* A per-symbol DataFrame in the historical store is either well formed
  (its `Close` column is a list of rationals, one per row) or malformed:
  `SeriesData.malformed n` models a frame with `n` rows on which the
  per-symbol body raises (for example a frame without a `Close` column),
  which the `try/except` blocks of the source catch and skip.

* The ranking keys `x[1] / x[2]` of `get_52week_analysis` run outside the
  per-symbol `try/except`; division there is modelled as fallible
  (`Except.error` on a zero divisor), conservatively covering Python
  scalar division semantics.  The division inside `get_30day_returns`
  operates on numpy float64 scalars, which never raise (they produce
  non-finite values instead), and is modelled by total rational division;
  its value at a zero divisor is irrelevant to the claims below, which
  only constrain membership there.

* Python's `sorted` is a stable sort; with `reverse=True` it is a stable
  sort by the reversed comparison.  `sorted(xs, key=f)` computes every key
  (raising at the first failing key) and then sorts the decorated list.
-/

deriving instance DecidableEq for Except

/-- A percent-change cell of the live quote table. -/
inductive PCell where
  | strCell (parsed : Option ℚ)
  | floatCell (val : ℚ)
  deriving DecidableEq

/-- Result of `astype(str).str.replace` and `astype(float)` on one cell. -/
def PCell.parse : PCell → Option ℚ
  | .strCell p => p
  | .floatCell v => some v

/-- One row of the live quote table: a symbol and its percent-change cell. -/
structure QuoteRow where
  symbol : String
  pChange : PCell
  deriving DecidableEq

/-- The live quote DataFrame, as a list of rows. -/
structure LiveDF where
  rows : List QuoteRow
  deriving DecidableEq

/-- A row of the table after the percent-change column has been converted
to floats. -/
structure NQuote where
  symbol : String
  pChange : ℚ
  deriving DecidableEq

/-- Writing a normalized row back into the DataFrame stores its
percent-change as a float cell. -/
def NQuote.toRow (r : NQuote) : QuoteRow :=
  ⟨r.symbol, .floatCell r.pChange⟩

/-- Conversion of one row by the column assignment
`live_df["pChange"].astype(str).str.replace ... astype(float)`. -/
def normalizeQuote (r : QuoteRow) : Option NQuote :=
  (r.pChange.parse).map fun q => ⟨r.symbol, q⟩

/-- Column-wise conversion: `astype(float)` raises as soon as any cell of
the column fails to parse. -/
def omapM (f : α → Option β) : List α → Option (List β)
  | [] => some []
  | a :: l =>
    match f a, omapM f l with
    | some b, some bl => some (b :: bl)
    | _, _ => none

/-- Ascending comparison on normalized rows used by
`sort_values("pChange")`. -/
def pRel (a b : NQuote) : Prop := a.pChange ≤ b.pChange

instance : DecidableRel pRel := fun a b => inferInstanceAs (Decidable (a.pChange ≤ b.pChange))

instance : IsTotal NQuote pRel := ⟨fun a b => le_total a.pChange b.pChange⟩

instance : IsTrans NQuote pRel := ⟨fun _ _ _ h h' => le_trans h h'⟩

/-- Descending comparison on normalized rows used by
`sort_values("pChange", ascending=False)`, which is a stable descending
sort in pandas (values and index reversed before the stable argsort, the
indexer after). -/
def gRel (a b : NQuote) : Prop := b.pChange ≤ a.pChange

instance : DecidableRel gRel := fun a b => inferInstanceAs (Decidable (b.pChange ≤ a.pChange))

instance : IsTotal NQuote gRel := ⟨fun a b => le_total b.pChange a.pChange⟩

instance : IsTrans NQuote gRel := ⟨fun _ _ _ h h' => le_trans h' h⟩

/-- Embedding of `NSEDataAnalyzer.get_top_gainers_losers` (src/main.py
lines 129-142).  The percent-change column is converted to floats and
written back into the caller's table; the gainers are the first five rows
of the stable descending sort and the losers the first five rows of the
stable ascending sort.  A conversion failure raises, rejecting the whole
snapshot. -/
def get_top_gainers_losers (df : LiveDF) :
    Except Unit (LiveDF × List NQuote × List NQuote) :=
  match omapM normalizeQuote df.rows with
  | none => .error ()
  | some nq =>
    .ok (⟨nq.map NQuote.toRow⟩,
      (List.insertionSort gRel nq).take 5, (List.insertionSort pRel nq).take 5)

/-- The symbols of the gainers list, empty on error. -/
def gainerSymbols (df : LiveDF) : List String :=
  match get_top_gainers_losers df with
  | .ok (_, g, _) => g.map NQuote.symbol
  | .error _ => []

/-- The symbols of the losers list, empty on error. -/
def loserSymbols (df : LiveDF) : List String :=
  match get_top_gainers_losers df with
  | .ok (_, _, l) => l.map NQuote.symbol
  | .error _ => []

/-- A per-symbol historical DataFrame: either a well-formed frame whose
`Close` column is the given list of closes, or a malformed frame with the
given number of rows on which the per-symbol body raises. -/
inductive SeriesData where
  | ok (closes : List ℚ)
  | malformed (nrows : ℕ)
  deriving DecidableEq

/-- Whether the frame is well formed. -/
def SeriesData.isOkData : SeriesData → Bool
  | .ok _ => true
  | .malformed _ => false

/-- The historical store: a Python dict from symbol to frame, iterated in
insertion order. -/
abbrev HistData := List (String × SeriesData)

/-- An entry `(sym, current_price, high_52w)` or `(sym, current_price,
low_52w)` appended by the loop of `get_52week_analysis`. -/
structure ExtEntry where
  symbol : String
  price : ℚ
  extreme : ℚ
  deriving DecidableEq

/-- The per-symbol body of the loop of `get_52week_analysis` (src/main.py
lines 151-164): an empty frame is skipped, a malformed frame raises and is
skipped by the handler, and otherwise the symbol is appended to the
below-high candidates iff `current <= 0.70 * high` and to the above-low
candidates iff `current >= 1.20 * low`. -/
def analyze52 (sym : String) : SeriesData → List ExtEntry × List ExtEntry
  | .malformed _ => ([], [])
  | .ok [] => ([], [])
  | .ok (c :: cs) =>
    let current := cs.getLastD c
    let high := cs.foldl max c
    let low := cs.foldl min c
    ((if current ≤ 7/10 * high then [⟨sym, current, high⟩] else []),
     (if current ≥ 6/5 * low then [⟨sym, current, low⟩] else []))

/-- The two candidate lists accumulated by the loop of
`get_52week_analysis`, in dict iteration order. -/
def candidates52 (hist : HistData) : List ExtEntry × List ExtEntry :=
  (hist.flatMap fun p => (analyze52 p.1 p.2).1,
   hist.flatMap fun p => (analyze52 p.1 p.2).2)

/-- Scalar division, fallible on a zero divisor. -/
def fdiv (a b : ℚ) : Except Unit ℚ :=
  if b = 0 then .error () else .ok (a / b)

/-- Key computation of `sorted(xs, key=f)`: every key is computed, in
order, raising at the first failure. -/
def collectKeys (key : ExtEntry → Except Unit ℚ) :
    List ExtEntry → Except Unit (List (ℚ × ExtEntry))
  | [] => .ok []
  | e :: l =>
    match key e, collectKeys key l with
    | .ok k, .ok ps => .ok ((k, e) :: ps)
    | _, _ => .error ()

/-- Ascending comparison on decorated entries. -/
def keyRel (a b : ℚ × ExtEntry) : Prop := a.1 ≤ b.1

instance : DecidableRel keyRel := fun a b => inferInstanceAs (Decidable (a.1 ≤ b.1))

instance : IsTotal (ℚ × ExtEntry) keyRel := ⟨fun a b => le_total a.1 b.1⟩

instance : IsTrans (ℚ × ExtEntry) keyRel := ⟨fun _ _ _ h h' => le_trans h h'⟩

/-- Python's `sorted(xs, key=f)`: compute all keys, then sort stably
ascending by key. -/
def sortByKey (key : ExtEntry → Except Unit ℚ) (l : List ExtEntry) :
    Except Unit (List ExtEntry) :=
  match collectKeys key l with
  | .error _ => .error ()
  | .ok ps => .ok ((List.insertionSort keyRel ps).map Prod.snd)

/-- Ranking key of the below-high list: `x[1] / x[2]`. -/
def keyBH (e : ExtEntry) : Except Unit ℚ := fdiv e.price e.extreme

/-- Ranking key of the above-low list: `-(x[1] / x[2])`. -/
def keyAL (e : ExtEntry) : Except Unit ℚ := (fdiv e.price e.extreme).map Neg.neg

/-- Embedding of `NSEDataAnalyzer.get_52week_analysis` (src/main.py lines
144-167): accumulate the candidate lists, then rank below-high ascending by
`current/high` and above-low descending by `current/low` (ascending by the
negated ratio), keeping the first five of each. -/
def get_52week_analysis (hist : HistData) :
    Except Unit (List ExtEntry × List ExtEntry) :=
  match sortByKey keyBH (candidates52 hist).1,
        sortByKey keyAL (candidates52 hist).2 with
  | .ok bh, .ok al => .ok (bh.take 5, al.take 5)
  | _, _ => .error ()

/-- An entry `(sym, returnPercent)` of `get_30day_returns`. -/
structure RetEntry where
  symbol : String
  ret : ℚ
  deriving DecidableEq

/-- The per-symbol body of the loop of `get_30day_returns` (src/main.py
lines 174-184): a frame with fewer than 30 rows is skipped, a malformed
frame raises and is skipped by the handler, and otherwise the 30-session
return is computed from the last close and the close 30 rows from the end
(`iloc[-30]`, index `length - 30`). -/
def analyze30 (sym : String) : SeriesData → Option RetEntry
  | .malformed _ => none
  | .ok closes =>
    if closes.length < 30 then none
    else
      let current := closes.getLastD 0
      let p30 := closes.getD (closes.length - 30) 0
      some ⟨sym, ((current - p30) / p30) * 100⟩

/-- Descending comparison on return entries used by
`sorted(returns, key=..., reverse=True)` (a stable sort by the reversed
comparison). -/
def retRel (a b : RetEntry) : Prop := b.ret ≤ a.ret

instance : DecidableRel retRel := fun a b => inferInstanceAs (Decidable (b.ret ≤ a.ret))

instance : IsTotal RetEntry retRel := ⟨fun a b => le_total b.ret a.ret⟩

instance : IsTrans RetEntry retRel := ⟨fun _ _ _ h h' => le_trans h' h⟩

/-- Embedding of `NSEDataAnalyzer.get_30day_returns` (src/main.py lines
169-186): collect the per-symbol returns in dict iteration order, then
sort descending by return. -/
def get_30day_returns (hist : HistData) : List RetEntry :=
  List.insertionSort retRel (hist.filterMap fun p => analyze30 p.1 p.2)

/-! ### Helper lemmas about the column conversion -/

theorem omapM_length {f : α → Option β} : ∀ {l : List α} {l' : List β},
    omapM f l = some l' → l'.length = l.length
  | [], _, h => by cases h; rfl
  | a :: l, l', h => by
    cases hfa : f a with
    | none => simp [omapM, hfa] at h
    | some b =>
      cases hrec : omapM f l with
      | none => simp [omapM, hfa, hrec] at h
      | some bl =>
        simp only [omapM, hfa, hrec] at h
        cases h
        simp [omapM_length hrec]

theorem omapM_eq_none_iff {f : α → Option β} : ∀ {l : List α},
    omapM f l = none ↔ ∃ a ∈ l, f a = none
  | [] => by simp [omapM]
  | a :: l => by
    cases hfa : f a with
    | none =>
      simp only [omapM, hfa, List.mem_cons]
      exact ⟨fun _ => ⟨a, Or.inl rfl, hfa⟩, fun _ => by trivial⟩
    | some b =>
      cases hrec : omapM f l with
      | none =>
        simp only [omapM, hfa, hrec, List.mem_cons]
        refine ⟨fun _ => ?_, fun _ => by trivial⟩
        obtain ⟨x, hx, hfx⟩ := omapM_eq_none_iff.mp hrec
        exact ⟨x, Or.inr hx, hfx⟩
      | some bl =>
        simp only [omapM, hfa, hrec, List.mem_cons]
        constructor
        · intro h; cases h
        · rintro ⟨x, hx | hx, hfx⟩
          · rw [hx] at hfx; rw [hfa] at hfx; cases hfx
          · have : omapM f l = none := omapM_eq_none_iff.mpr ⟨x, hx, hfx⟩
            rw [this] at hrec; cases hrec

theorem omapM_float_rows : ∀ {rows : List QuoteRow},
    (∀ r ∈ rows, ∃ v, r.pChange = PCell.floatCell v) →
    ∃ nq, omapM normalizeQuote rows = some nq ∧ nq.map NQuote.toRow = rows
  | [], _ => ⟨[], rfl, rfl⟩
  | r :: rows, h => by
    obtain ⟨v, hv⟩ := h r (List.mem_cons_self r rows)
    obtain ⟨nq, hnq, hmap⟩ := omapM_float_rows fun x hx => h x (List.mem_cons_of_mem r hx)
    refine ⟨⟨r.symbol, v⟩ :: nq, ?_, ?_⟩
    · simp [omapM, normalizeQuote, hv, PCell.parse, hnq]
    · simp only [List.map_cons, hmap, NQuote.toRow]
      congr 1
      cases r with
      | mk s p => simp only at hv; rw [hv]

/-! ### Stability of the ascending sort on quote rows -/

theorem filter_orderedInsert_pRel (q : ℚ) (a : NQuote) :
    ∀ s : List NQuote,
      (List.orderedInsert pRel a s).filter (fun x => decide (x.pChange = q)) =
        if a.pChange = q then a :: s.filter (fun x => decide (x.pChange = q))
        else s.filter (fun x => decide (x.pChange = q))
  | [] => by
    simp only [List.orderedInsert, List.filter]
    split_ifs with h
    · simp [h]
    · simp [h]
  | b :: t => by
    by_cases hab : pRel a b
    · rw [List.orderedInsert_of_le pRel t hab]
      by_cases haq : a.pChange = q <;> simp [List.filter_cons, haq]
    · have hba : b.pChange < a.pChange := lt_of_not_le hab
      simp only [List.orderedInsert, if_neg hab, List.filter_cons]
      rw [filter_orderedInsert_pRel q a t]
      by_cases haq : a.pChange = q
      · have hbq : b.pChange ≠ q := by rw [← haq]; exact ne_of_lt hba
        simp [haq, hbq]
      · by_cases hbq : b.pChange = q <;> simp [haq, hbq]

theorem filter_insertionSort_pRel (q : ℚ) :
    ∀ l : List NQuote,
      (List.insertionSort pRel l).filter (fun x => decide (x.pChange = q)) =
        l.filter (fun x => decide (x.pChange = q))
  | [] => rfl
  | a :: l => by
    simp only [List.insertionSort]
    rw [filter_orderedInsert_pRel q a (List.insertionSort pRel l),
      filter_insertionSort_pRel q l, List.filter_cons]
    split_ifs with h <;> simp_all

theorem filter_orderedInsert_gRel (q : ℚ) (a : NQuote) :
    ∀ s : List NQuote,
      (List.orderedInsert gRel a s).filter (fun x => decide (x.pChange = q)) =
        if a.pChange = q then a :: s.filter (fun x => decide (x.pChange = q))
        else s.filter (fun x => decide (x.pChange = q))
  | [] => by
    simp only [List.orderedInsert, List.filter]
    split_ifs with h
    · simp [h]
    · simp [h]
  | b :: t => by
    by_cases hab : gRel a b
    · rw [List.orderedInsert_of_le gRel t hab]
      by_cases haq : a.pChange = q <;> simp [List.filter_cons, haq]
    · have hba : a.pChange < b.pChange := lt_of_not_le hab
      simp only [List.orderedInsert, if_neg hab, List.filter_cons]
      rw [filter_orderedInsert_gRel q a t]
      by_cases haq : a.pChange = q
      · have hbq : b.pChange ≠ q := by rw [← haq]; exact ne_of_gt hba
        simp [haq, hbq]
      · by_cases hbq : b.pChange = q <;> simp [haq, hbq]

theorem filter_insertionSort_gRel (q : ℚ) :
    ∀ l : List NQuote,
      (List.insertionSort gRel l).filter (fun x => decide (x.pChange = q)) =
        l.filter (fun x => decide (x.pChange = q))
  | [] => rfl
  | a :: l => by
    simp only [List.insertionSort]
    rw [filter_orderedInsert_gRel q a (List.insertionSort gRel l),
      filter_insertionSort_gRel q l, List.filter_cons]
    split_ifs with h <;> simp_all

/-! ### Helper lemmas about keyed sorting -/

theorem collectKeys_ok_map_snd {key : ExtEntry → Except Unit ℚ} :
    ∀ {l : List ExtEntry} {ps : List (ℚ × ExtEntry)},
      collectKeys key l = .ok ps → ps.map Prod.snd = l
  | [], ps, h => by cases h; rfl
  | e :: l, ps, h => by
    cases hk : key e with
    | error u => simp [collectKeys, hk] at h
    | ok k =>
      cases hrec : collectKeys key l with
      | error u => simp [collectKeys, hk, hrec] at h
      | ok ps' =>
        simp only [collectKeys, hk, hrec] at h
        cases h
        simp [collectKeys_ok_map_snd hrec]

theorem collectKeys_ok_of_forall {key : ExtEntry → Except Unit ℚ} :
    ∀ {l : List ExtEntry}, (∀ e ∈ l, ∃ k, key e = .ok k) →
      ∃ ps, collectKeys key l = .ok ps
  | [], _ => ⟨[], rfl⟩
  | e :: l, h => by
    obtain ⟨k, hk⟩ := h e (List.mem_cons_self e l)
    obtain ⟨ps, hps⟩ := collectKeys_ok_of_forall
      fun x hx => h x (List.mem_cons_of_mem e hx)
    exact ⟨(k, e) :: ps, by simp [collectKeys, hk, hps]⟩

theorem sortByKey_ok_perm {key : ExtEntry → Except Unit ℚ}
    {l l' : List ExtEntry} (h : sortByKey key l = .ok l') : l'.Perm l := by
  unfold sortByKey at h
  cases hck : collectKeys key l with
  | error u => rw [hck] at h; cases h
  | ok ps =>
    rw [hck] at h
    cases h
    have hperm : (List.insertionSort keyRel ps).Perm ps :=
      List.perm_insertionSort keyRel ps
    have := hperm.map Prod.snd
    rwa [collectKeys_ok_map_snd hck] at this

theorem sortByKey_ok_of_forall {key : ExtEntry → Except Unit ℚ}
    {l : List ExtEntry} (h : ∀ e ∈ l, ∃ k, key e = .ok k) :
    ∃ l', sortByKey key l = .ok l' := by
  obtain ⟨ps, hps⟩ := collectKeys_ok_of_forall h
  exact ⟨(List.insertionSort keyRel ps).map Prod.snd, by simp [sortByKey, hps]⟩

/-! ### Helper lemmas about the candidate lists and dict keys -/

theorem analyze52_fst_symbol {k : String} {d : SeriesData} {e : ExtEntry}
    (h : e ∈ (analyze52 k d).1) : e.symbol = k := by
  cases d with
  | malformed n => simp [analyze52] at h
  | ok closes =>
    cases closes with
    | nil => simp [analyze52] at h
    | cons c cs =>
      simp only [analyze52] at h
      split_ifs at h with hc
      · simp only [List.mem_singleton] at h
        rw [h]
      · exact absurd h (List.not_mem_nil e)

theorem analyze52_snd_symbol {k : String} {d : SeriesData} {e : ExtEntry}
    (h : e ∈ (analyze52 k d).2) : e.symbol = k := by
  cases d with
  | malformed n => simp [analyze52] at h
  | ok closes =>
    cases closes with
    | nil => simp [analyze52] at h
    | cons c cs =>
      simp only [analyze52] at h
      split_ifs at h with hc
      · simp only [List.mem_singleton] at h
        rw [h]
      · exact absurd h (List.not_mem_nil e)

theorem analyze30_symbol {k : String} {d : SeriesData} {e : RetEntry}
    (h : analyze30 k d = some e) : e.symbol = k := by
  cases d with
  | malformed n => simp [analyze30] at h
  | ok closes =>
    simp only [analyze30] at h
    split_ifs at h with hc
    injection h with h'
    rw [← h']

theorem nodup_key_unique {hist : HistData}
    (hnd : (hist.map Prod.fst).Nodup) {k : String} {d₁ d₂ : SeriesData}
    (h₁ : (k, d₁) ∈ hist) (h₂ : (k, d₂) ∈ hist) : d₁ = d₂ := by
  induction hist with
  | nil => cases h₁
  | cons p hist ih =>
    simp only [List.map_cons, List.nodup_cons] at hnd
    rcases List.mem_cons.mp h₁ with h₁ | h₁ <;>
      rcases List.mem_cons.mp h₂ with h₂ | h₂
    · simpa using congrArg Prod.snd (h₁.trans h₂.symm)
    · exfalso
      apply hnd.1
      rw [show p.1 = k from (congrArg Prod.fst h₁).symm]
      exact List.mem_map.mpr ⟨(k, d₂), h₂, rfl⟩
    · exfalso
      apply hnd.1
      rw [show p.1 = k from (congrArg Prod.fst h₂).symm]
      exact List.mem_map.mpr ⟨(k, d₁), h₁, rfl⟩
    · exact ih hnd.2 h₁ h₂

/-! ### Destructuring the engine operations -/

theorem get_top_ok {df : LiveDF} {post : LiveDF} {g l : List NQuote}
    (h : get_top_gainers_losers df = .ok (post, g, l)) :
    ∃ nq, omapM normalizeQuote df.rows = some nq ∧
      post = ⟨nq.map NQuote.toRow⟩ ∧
      g = (List.insertionSort gRel nq).take 5 ∧
      l = (List.insertionSort pRel nq).take 5 := by
  unfold get_top_gainers_losers at h
  cases hm : omapM normalizeQuote df.rows with
  | none => rw [hm] at h; cases h
  | some nq =>
    rw [hm] at h
    simp only [Except.ok.injEq, Prod.mk.injEq] at h
    exact ⟨nq, rfl, h.1.symm, h.2.1.symm, h.2.2.symm⟩

theorem get52_ok {hist : HistData} {bh al : List ExtEntry}
    (h : get_52week_analysis hist = .ok (bh, al)) :
    ∃ bh' al', sortByKey keyBH (candidates52 hist).1 = .ok bh' ∧
      sortByKey keyAL (candidates52 hist).2 = .ok al' ∧
      bh = bh'.take 5 ∧ al = al'.take 5 := by
  unfold get_52week_analysis at h
  cases h1 : sortByKey keyBH (candidates52 hist).1 with
  | error u => rw [h1] at h; cases h
  | ok bh' =>
    cases h2 : sortByKey keyAL (candidates52 hist).2 with
    | error u => rw [h1, h2] at h; cases h
    | ok al' =>
      rw [h1, h2] at h
      simp only [Except.ok.injEq, Prod.mk.injEq] at h
      exact ⟨bh', al', rfl, rfl, h.1.symm, h.2.symm⟩

theorem mem_bh_candidates {hist : HistData} {bh al : List ExtEntry}
    (h : get_52week_analysis hist = .ok (bh, al)) {e : ExtEntry} (he : e ∈ bh) :
    e ∈ (candidates52 hist).1 := by
  obtain ⟨bh', _, h1, _, hbh, _⟩ := get52_ok h
  rw [hbh] at he
  exact (sortByKey_ok_perm h1).mem_iff.mp (List.take_subset 5 bh' he)

theorem mem_al_candidates {hist : HistData} {bh al : List ExtEntry}
    (h : get_52week_analysis hist = .ok (bh, al)) {e : ExtEntry} (he : e ∈ al) :
    e ∈ (candidates52 hist).2 := by
  obtain ⟨_, al', _, h2, _, hal⟩ := get52_ok h
  rw [hal] at he
  exact (sortByKey_ok_perm h2).mem_iff.mp (List.take_subset 5 al' he)

/-! ### Malformed frames contribute nothing -/

theorem flatMap_filter_isOk {β : Type} (f : String → SeriesData → List β)
    (hf : ∀ k n, f k (.malformed n) = []) : ∀ hist : HistData,
    (hist.filter fun p => p.2.isOkData).flatMap (fun p => f p.1 p.2) =
      hist.flatMap (fun p => f p.1 p.2)
  | [] => rfl
  | (k, d) :: hist => by
    cases d with
    | ok closes =>
      rw [show (((k, SeriesData.ok closes) :: hist).filter fun p => p.2.isOkData) =
        (k, SeriesData.ok closes) :: (hist.filter fun p => p.2.isOkData) from rfl]
      rw [List.flatMap_cons, List.flatMap_cons, flatMap_filter_isOk f hf hist]
    | malformed n =>
      rw [show (((k, SeriesData.malformed n) :: hist).filter fun p => p.2.isOkData) =
        hist.filter (fun p => p.2.isOkData) from rfl]
      rw [List.flatMap_cons, hf k n, List.nil_append]
      exact flatMap_filter_isOk f hf hist

theorem filterMap_filter_isOk {β : Type} (g : String → SeriesData → Option β)
    (hg : ∀ k n, g k (.malformed n) = none) : ∀ hist : HistData,
    (hist.filter fun p => p.2.isOkData).filterMap (fun p => g p.1 p.2) =
      hist.filterMap (fun p => g p.1 p.2)
  | [] => rfl
  | (k, d) :: hist => by
    cases d with
    | ok closes =>
      rw [show (((k, SeriesData.ok closes) :: hist).filter fun p => p.2.isOkData) =
        (k, SeriesData.ok closes) :: (hist.filter fun p => p.2.isOkData) from rfl]
      rw [List.filterMap_cons, List.filterMap_cons, filterMap_filter_isOk g hg hist]
    | malformed n =>
      rw [show (((k, SeriesData.malformed n) :: hist).filter fun p => p.2.isOkData) =
        hist.filter (fun p => p.2.isOkData) from rfl]
      rw [List.filterMap_cons, hg k n]
      exact filterMap_filter_isOk g hg hist

/-! ### Counting entries per symbol in the 30-day returns -/

theorem countP_returns_zero {sym : String} : ∀ {hist : HistData},
    sym ∉ hist.map Prod.fst →
    (hist.filterMap fun p => analyze30 p.1 p.2).countP
      (fun e => decide (e.symbol = sym)) = 0
  | [], _ => rfl
  | (k, d) :: hist, h => by
    simp only [List.map_cons, List.mem_cons] at h
    push_neg at h
    cases hk : analyze30 k d with
    | none =>
      simp only [List.filterMap_cons, hk]
      exact countP_returns_zero h.2
    | some e =>
      have hes : e.symbol = k := analyze30_symbol hk
      simp only [List.filterMap_cons, hk, List.countP_cons]
      rw [countP_returns_zero h.2]
      simp [hes, Ne.symm h.1]

theorem countP_returns {sym : String} {d : SeriesData} : ∀ {hist : HistData},
    (hist.map Prod.fst).Nodup → (sym, d) ∈ hist →
    (hist.filterMap fun p => analyze30 p.1 p.2).countP
      (fun e => decide (e.symbol = sym)) =
      if (analyze30 sym d).isSome then 1 else 0
  | [], _, hmem => by cases hmem
  | (k, d') :: hist, hnd, hmem => by
    simp only [List.map_cons, List.nodup_cons] at hnd
    rcases List.mem_cons.mp hmem with hh | hh
    · injection hh with hk hd
      subst hk
      subst hd
      cases ha : analyze30 sym d with
      | none =>
        simp only [List.filterMap_cons, ha, Option.isSome_none,
          Bool.false_eq_true, if_false]
        exact countP_returns_zero hnd.1
      | some e =>
        have hes : e.symbol = sym := analyze30_symbol ha
        simp only [List.filterMap_cons, ha, List.countP_cons, Option.isSome_some,
          if_true]
        rw [countP_returns_zero hnd.1]
        simp [hes]
    · have hk : k ≠ sym := by
        intro hc
        exact hnd.1 (hc ▸ List.mem_map.mpr ⟨(sym, d), hh, rfl⟩)
      cases hka : analyze30 k d' with
      | none =>
        simp only [List.filterMap_cons, hka]
        exact countP_returns hnd.2 hh
      | some e =>
        have hes : e.symbol = k := analyze30_symbol hka
        simp only [List.filterMap_cons, hka, List.countP_cons]
        rw [countP_returns hnd.2 hh]
        simp [hes, hk]

theorem mem_analyze52_fst_of_symbol {hist : HistData}
    (hnd : (hist.map Prod.fst).Nodup) {sym : String} {d : SeriesData}
    (hmem : (sym, d) ∈ hist) {e : ExtEntry}
    (he : e ∈ (candidates52 hist).1) (hsym : e.symbol = sym) :
    e ∈ (analyze52 sym d).1 := by
  obtain ⟨⟨k, d'⟩, hp, hpe⟩ := List.mem_flatMap.mp he
  have hk : k = sym := by rw [← hsym, analyze52_fst_symbol hpe]
  subst hk
  have hd : d' = d := nodup_key_unique hnd hp hmem
  subst hd
  exact hpe

theorem mem_analyze52_snd_of_symbol {hist : HistData}
    (hnd : (hist.map Prod.fst).Nodup) {sym : String} {d : SeriesData}
    (hmem : (sym, d) ∈ hist) {e : ExtEntry}
    (he : e ∈ (candidates52 hist).2) (hsym : e.symbol = sym) :
    e ∈ (analyze52 sym d).2 := by
  obtain ⟨⟨k, d'⟩, hp, hpe⟩ := List.mem_flatMap.mp he
  have hk : k = sym := by rw [← hsym, analyze52_snd_symbol hpe]
  subst hk
  have hd : d' = d := nodup_key_unique hnd hp hmem
  subst hd
  exact hpe

/-! ### Concrete example inputs -/

/-- The spec example table: quotes A +5.0, B -3.0, C +5.0, D -3.0. -/
def exQuad : LiveDF :=
  ⟨[⟨"A", .floatCell 5⟩, ⟨"B", .floatCell (-3)⟩,
    ⟨"C", .floatCell 5⟩, ⟨"D", .floatCell (-3)⟩]⟩

/-- A one-row table whose percent-change cell is the string "5.0%". -/
def exStr : LiveDF := ⟨[⟨"A", .strCell (some 5)⟩]⟩

/-- A table whose percent-change cells are already floats. -/
def exFloat : LiveDF := ⟨[⟨"A", .floatCell 2⟩, ⟨"B", .floatCell 1⟩]⟩

/-- A three-row all-float table. -/
def exTriple : LiveDF :=
  ⟨[⟨"A", .floatCell 1⟩, ⟨"B", .floatCell 3⟩, ⟨"C", .floatCell 2⟩]⟩

/-! ### C1 -/

/-- C1: quotes tied on percentChange retain their original relative order
in both outputs.  The losers are an initial segment of the stable
ascending sort and the gainers of the stable descending sort (pandas
reverses the values before the stable argsort and the indexer after, so
descending ties also keep original order): filtering either sorted row
list to any fixed percent-change value yields exactly the original rows
with that value, in order.  On the example table [A +5, B -3, C +5, D -3]
the gainers begin [A, C] and the losers [B, D]. -/
theorem c1_sort_tie_order (df : LiveDF) (post : LiveDF) (g l : List NQuote)
    (h : get_top_gainers_losers df = .ok (post, g, l)) (q : ℚ) :
    (∃ nq, omapM normalizeQuote df.rows = some nq ∧
      g = (List.insertionSort gRel nq).take 5 ∧
      l = (List.insertionSort pRel nq).take 5 ∧
      (List.insertionSort gRel nq).filter (fun x => decide (x.pChange = q)) =
        nq.filter (fun x => decide (x.pChange = q)) ∧
      (List.insertionSort pRel nq).filter (fun x => decide (x.pChange = q)) =
        nq.filter (fun x => decide (x.pChange = q))) ∧
    (gainerSymbols exQuad).take 2 = ["A", "C"] ∧
    (loserSymbols exQuad).take 2 = ["B", "D"] := by
  obtain ⟨nq, hm, _, hg, hl⟩ := get_top_ok h
  exact ⟨⟨nq, hm, hg, hl, filter_insertionSort_gRel q nq,
    filter_insertionSort_pRel q nq⟩, by decide, by decide⟩

/-- Witness for C1 at the four-quote example with q = 5. -/
theorem c1_sort_tie_order_witness :
    (∃ nq, omapM normalizeQuote exQuad.rows = some nq ∧
      ([⟨"A", (5 : ℚ)⟩, ⟨"C", 5⟩, ⟨"B", -3⟩, ⟨"D", -3⟩] : List NQuote) =
        (List.insertionSort gRel nq).take 5 ∧
      ([⟨"B", (-3 : ℚ)⟩, ⟨"D", -3⟩, ⟨"A", 5⟩, ⟨"C", 5⟩] : List NQuote) =
        (List.insertionSort pRel nq).take 5 ∧
      (List.insertionSort gRel nq).filter (fun x => decide (x.pChange = 5)) =
        nq.filter (fun x => decide (x.pChange = 5)) ∧
      (List.insertionSort pRel nq).filter (fun x => decide (x.pChange = 5)) =
        nq.filter (fun x => decide (x.pChange = 5))) ∧
    (gainerSymbols exQuad).take 2 = ["A", "C"] ∧
    (loserSymbols exQuad).take 2 = ["B", "D"] :=
  c1_sort_tie_order exQuad exQuad
    [⟨"A", 5⟩, ⟨"C", 5⟩, ⟨"B", -3⟩, ⟨"D", -3⟩]
    [⟨"B", -3⟩, ⟨"D", -3⟩, ⟨"A", 5⟩, ⟨"C", 5⟩] (by decide) 5

/-! ### C2 -/

/-- C2, counterexample: on a table whose percent-change cell is the string
"5.0%", the table after the call holds the parsed float cell, so the
caller's table was mutated by the column assignment. -/
theorem c2_mutation_cex :
    get_top_gainers_losers exStr =
      .ok (⟨[⟨"A", .floatCell 5⟩]⟩, [⟨"A", 5⟩], [⟨"A", 5⟩]) ∧
    (⟨[⟨"A", PCell.floatCell 5⟩]⟩ : LiveDF) ≠ exStr := by decide

/-- C2, amended: get_52week_analysis and get_30day_returns are pure
functions of the historical store, but get_top_gainers_losers rewrites the
percent-change column in place; the caller's table is returned unchanged
exactly on tables whose percent-change cells are already floats. -/
theorem c2_no_mutation (df : LiveDF)
    (h : ∀ r ∈ df.rows, ∃ v, r.pChange = PCell.floatCell v) :
    ∃ g l, get_top_gainers_losers df = .ok (df, g, l) := by
  obtain ⟨nq, hm, hmap⟩ := omapM_float_rows h
  refine ⟨(List.insertionSort gRel nq).take 5,
    (List.insertionSort pRel nq).take 5, ?_⟩
  unfold get_top_gainers_losers
  rw [hm]
  exact congrArg (fun rows =>
    (Except.ok (LiveDF.mk rows, (List.insertionSort gRel nq).take 5,
      (List.insertionSort pRel nq).take 5) :
        Except Unit (LiveDF × List NQuote × List NQuote))) hmap

/-- Witness for C2 at an all-float two-row table. -/
theorem c2_no_mutation_witness :
    ∃ g l, get_top_gainers_losers exFloat = .ok (exFloat, g, l) :=
  c2_no_mutation exFloat (by
    intro r hr
    rcases List.mem_cons.mp hr with h | h
    · exact ⟨2, by rw [h]⟩
    · rcases List.mem_cons.mp h with h | h
      · exact ⟨1, by rw [h]⟩
      · cases h)

/-! ### C5 -/

/-- C5: on success the gainers and losers have length min 5 |Q|, the
gainers are sorted descending by percentChange and the losers ascending,
and when the table has at most five rows both lists are a permutation of
the whole (normalized) table — no padding. -/
theorem c5_top5_shape (df : LiveDF) (post : LiveDF) (g l : List NQuote)
    (h : get_top_gainers_losers df = .ok (post, g, l)) :
    g.length = min 5 df.rows.length ∧ l.length = min 5 df.rows.length ∧
    List.Sorted (fun a b => pRel b a) g ∧ List.Sorted pRel l ∧
    (df.rows.length ≤ 5 →
      (g.map NQuote.toRow).Perm post.rows ∧ (l.map NQuote.toRow).Perm post.rows) := by
  obtain ⟨nq, hm, hpost, hg, hl⟩ := get_top_ok h
  have hlen : nq.length = df.rows.length := omapM_length hm
  have hsortlen : (List.insertionSort pRel nq).length = nq.length :=
    (List.perm_insertionSort pRel nq).length_eq
  have hsortlenG : (List.insertionSort gRel nq).length = nq.length :=
    (List.perm_insertionSort gRel nq).length_eq
  refine ⟨?_, ?_, ?_, ?_, ?_⟩
  · rw [hg, List.length_take, hsortlenG, hlen]
  · rw [hl, List.length_take, hsortlen, hlen]
  · rw [hg]
    exact List.Pairwise.sublist (List.take_sublist _ _)
      (List.sorted_insertionSort gRel nq)
  · rw [hl]
    exact List.Pairwise.sublist (List.take_sublist _ _)
      (List.sorted_insertionSort pRel nq)
  · intro h5
    constructor
    · rw [hg, List.take_of_length_le (by rw [hsortlenG, hlen]; exact h5), hpost]
      exact (List.perm_insertionSort gRel nq).map NQuote.toRow
    · rw [hl, List.take_of_length_le (by rw [hsortlen, hlen]; exact h5), hpost]
      exact (List.perm_insertionSort pRel nq).map NQuote.toRow

/-- Witness for C5 at a three-row table. -/
theorem c5_top5_shape_witness :
    ([⟨"B", (3 : ℚ)⟩, ⟨"C", 2⟩, ⟨"A", 1⟩] : List NQuote).length =
        min 5 exTriple.rows.length ∧
    ([⟨"A", (1 : ℚ)⟩, ⟨"C", 2⟩, ⟨"B", 3⟩] : List NQuote).length =
        min 5 exTriple.rows.length ∧
    List.Sorted (fun a b => pRel b a)
      ([⟨"B", (3 : ℚ)⟩, ⟨"C", 2⟩, ⟨"A", 1⟩] : List NQuote) ∧
    List.Sorted pRel ([⟨"A", (1 : ℚ)⟩, ⟨"C", 2⟩, ⟨"B", 3⟩] : List NQuote) ∧
    (exTriple.rows.length ≤ 5 →
      (([⟨"B", (3 : ℚ)⟩, ⟨"C", 2⟩, ⟨"A", 1⟩] : List NQuote).map NQuote.toRow).Perm
        exTriple.rows ∧
      (([⟨"A", (1 : ℚ)⟩, ⟨"C", 2⟩, ⟨"B", 3⟩] : List NQuote).map NQuote.toRow).Perm
        exTriple.rows) :=
  c5_top5_shape exTriple exTriple
    [⟨"B", 3⟩, ⟨"C", 2⟩, ⟨"A", 1⟩] [⟨"A", 1⟩, ⟨"C", 2⟩, ⟨"B", 3⟩] (by decide)

/-! ### C8 -/

/-- C8: the snapshot operation raises exactly when some row's
percent-change cell is absent or unparsable, and then no partial
gainers/losers result is produced (the error carries nothing). -/
theorem c8_malformed_rejects (df : LiveDF) :
    get_top_gainers_losers df = .error () ↔
      ∃ r ∈ df.rows, r.pChange.parse = none := by
  unfold get_top_gainers_losers
  cases hm : omapM normalizeQuote df.rows with
  | none =>
    refine iff_of_true rfl ?_
    obtain ⟨r, hr, hparse⟩ := omapM_eq_none_iff.mp hm
    refine ⟨r, hr, ?_⟩
    by_contra hne
    cases hp : r.pChange.parse with
    | none => exact hne hp
    | some v => simp [normalizeQuote, hp] at hparse
  | some nq =>
    refine iff_of_false (by intro hcon; cases hcon) ?_
    rintro ⟨r, hr, hparse⟩
    have : omapM normalizeQuote df.rows = none :=
      omapM_eq_none_iff.mpr ⟨r, hr, by simp [normalizeQuote, hparse]⟩
    rw [this] at hm
    cases hm

/-! ### C4 -/

/-- C4: a symbol with a non-empty well-formed series is a below-high
candidate iff its last close is at most 0.70 times its maximum close, and
an above-low candidate iff its last close is at least 1.20 times its
minimum close (both thresholds inclusive); on the series
[100, 90, 80, 70, 60, 50] the analysis returns the below-high entry
(symbol, 50, 100) and nothing above-low. -/
theorem c4_threshold_inclusive (hist : HistData)
    (hnd : (hist.map Prod.fst).Nodup) (sym : String) (c : ℚ) (cs : List ℚ)
    (hmem : (sym, SeriesData.ok (c :: cs)) ∈ hist) :
    ((⟨sym, cs.getLastD c, cs.foldl max c⟩ : ExtEntry) ∈ (candidates52 hist).1 ↔
      cs.getLastD c ≤ 7/10 * cs.foldl max c) ∧
    ((⟨sym, cs.getLastD c, cs.foldl min c⟩ : ExtEntry) ∈ (candidates52 hist).2 ↔
      cs.getLastD c ≥ 6/5 * cs.foldl min c) ∧
    get_52week_analysis [("X", SeriesData.ok [100, 90, 80, 70, 60, 50])] =
      .ok ([⟨"X", 50, 100⟩], []) := by
  refine ⟨⟨?_, ?_⟩, ⟨?_, ?_⟩, ?_⟩
  · intro he
    have h := mem_analyze52_fst_of_symbol hnd hmem he rfl
    simp only [analyze52] at h
    split_ifs at h with hc
    · exact hc
    · exact absurd h (List.not_mem_nil _)
  · intro hc
    refine List.mem_flatMap.mpr ⟨(sym, SeriesData.ok (c :: cs)), hmem, ?_⟩
    simp only [analyze52]
    rw [if_pos hc]
    exact List.mem_singleton.mpr rfl
  · intro he
    have h := mem_analyze52_snd_of_symbol hnd hmem he rfl
    simp only [analyze52] at h
    split_ifs at h with hc
    · exact hc
    · exact absurd h (List.not_mem_nil _)
  · intro hc
    refine List.mem_flatMap.mpr ⟨(sym, SeriesData.ok (c :: cs)), hmem, ?_⟩
    simp only [analyze52]
    rw [if_pos hc]
    exact List.mem_singleton.mpr rfl
  · have h1 : analyze52 "X" (SeriesData.ok [100, 90, 80, 70, 60, 50]) =
        ([⟨"X", 50, 100⟩], []) := by
      rw [analyze52]
      norm_num [List.getLastD, List.foldl, max_def, min_def]
    have h2 : candidates52 [("X", SeriesData.ok [100, 90, 80, 70, 60, 50])] =
        ([⟨"X", 50, 100⟩], []) := by
      simp [candidates52, h1]
    have h3 : sortByKey keyBH [⟨"X", 50, 100⟩] = .ok [⟨"X", 50, 100⟩] := by
      norm_num [sortByKey, collectKeys, keyBH, fdiv]
    unfold get_52week_analysis
    rw [h2]
    simp only [h3]
    rfl

/-- Witness for C4 at the series [100, 50]: the below-high entry
(Y, 50, 100) is a candidate. -/
theorem c4_threshold_inclusive_witness :
    (⟨"Y", (50 : ℚ), 100⟩ : ExtEntry) ∈
      (candidates52 [("Y", SeriesData.ok [100, 50])]).1 := by
  have h := (c4_threshold_inclusive [("Y", SeriesData.ok [100, 50])]
    (by decide) "Y" 100 [50] (by decide)).1
  have e1 : ([50] : List ℚ).getLastD 100 = 50 := rfl
  have e2 : ([50] : List ℚ).foldl max 100 = 100 := by
    norm_num [List.foldl, max_def]
  rw [e1, e2] at h
  exact h.mpr (by norm_num)

/-! ### C3 -/

/-- C3, counterexample: for the constant series [-1] the last close equals
both the maximum and the minimum close, yet the symbol appears in BOTH the
below-high and the above-low result (for a non-positive price the
inclusive threshold comparisons both succeed). -/
theorem c3_constant_series_cex :
    get_52week_analysis [("S", SeriesData.ok [-1])] =
      .ok ([⟨"S", -1, -1⟩], [⟨"S", -1, -1⟩]) ∧
    ([(-1 : ℚ)].getLastD 0 = -1 ∧ ([] : List ℚ).foldl max (-1) = -1 ∧
      ([] : List ℚ).foldl min (-1) = -1) := by
  constructor
  · have h1 : analyze52 "S" (SeriesData.ok [-1]) =
        ([⟨"S", -1, -1⟩], [⟨"S", -1, -1⟩]) := by
      rw [analyze52]
      norm_num [List.getLastD, List.foldl]
    have h2 : candidates52 [("S", SeriesData.ok [-1])] =
        ([⟨"S", -1, -1⟩], [⟨"S", -1, -1⟩]) := by
      simp [candidates52, h1]
    have h3 : sortByKey keyBH [⟨"S", -1, -1⟩] = .ok [⟨"S", -1, -1⟩] := by
      norm_num [sortByKey, collectKeys, keyBH, fdiv]
    have h4 : sortByKey keyAL [⟨"S", -1, -1⟩] = .ok [⟨"S", -1, -1⟩] := by
      norm_num [sortByKey, collectKeys, keyAL, fdiv, Except.map]
    unfold get_52week_analysis
    rw [h2]
    dsimp only
    rw [h3, h4]
    rfl
  · norm_num

/-- C3, amended: a symbol whose well-formed non-empty series has its last
close equal to both the maximum and the minimum close, with that price
strictly positive, appears in neither the below-high nor the above-low
output. -/
theorem c3_constant_series (hist : HistData)
    (hnd : (hist.map Prod.fst).Nodup) (sym : String) (c : ℚ) (cs : List ℚ)
    (hmem : (sym, SeriesData.ok (c :: cs)) ∈ hist)
    (hmax : cs.foldl max c = cs.getLastD c)
    (hmin : cs.foldl min c = cs.getLastD c)
    (hpos : 0 < cs.getLastD c)
    (bh al : List ExtEntry) (hok : get_52week_analysis hist = .ok (bh, al)) :
    (∀ e ∈ bh, e.symbol ≠ sym) ∧ (∀ e ∈ al, e.symbol ≠ sym) := by
  constructor
  · intro e he hsym
    have h := mem_analyze52_fst_of_symbol hnd hmem (mem_bh_candidates hok he) hsym
    simp only [analyze52, hmax] at h
    split_ifs at h with hc
    · nlinarith [hpos, hc]
    · exact absurd h (List.not_mem_nil _)
  · intro e he hsym
    have h := mem_analyze52_snd_of_symbol hnd hmem (mem_al_candidates hok he) hsym
    simp only [analyze52, hmin] at h
    split_ifs at h with hc
    · nlinarith [hpos, hc]
    · exact absurd h (List.not_mem_nil _)

/-- Witness for C3 at the constant positive series [10]. -/
theorem c3_constant_series_witness :
    (0 : ℚ) < ([] : List ℚ).getLastD 10 ∧
    (∀ e ∈ ([] : List ExtEntry), e.symbol ≠ "T") ∧
    (∀ e ∈ ([] : List ExtEntry), e.symbol ≠ "T") := by
  have hok : get_52week_analysis [("T", SeriesData.ok [10])] = .ok ([], []) := by
    have h1 : analyze52 "T" (SeriesData.ok [10]) = ([], []) := by
      rw [analyze52]
      norm_num [List.getLastD, List.foldl]
    have h2 : candidates52 [("T", SeriesData.ok [10])] = ([], []) := by
      simp [candidates52, h1]
    unfold get_52week_analysis
    rw [h2]
    rfl
  have h := c3_constant_series [("T", SeriesData.ok [10])] (by decide) "T" 10 []
    (by decide) rfl rfl (by norm_num) [] [] hok
  exact ⟨by norm_num, h.1, h.2⟩

/-! ### C10 -/

/-- C10: when every non-empty well-formed series has strictly positive
maximum and minimum closes, every candidate entry carries a strictly
positive extreme price — so the ranking divisions current/extreme are
well-defined — and the 52-week analysis returns without raising. -/
theorem c10_positive_divisors (hist : HistData)
    (hpos : ∀ p ∈ hist, ∀ c cs, p.2 = SeriesData.ok (c :: cs) →
      0 < cs.foldl max c ∧ 0 < cs.foldl min c) :
    (∀ e ∈ (candidates52 hist).1, 0 < e.extreme) ∧
    (∀ e ∈ (candidates52 hist).2, 0 < e.extreme) ∧
    ∃ bh al, get_52week_analysis hist = .ok (bh, al) := by
  have hbh : ∀ e ∈ (candidates52 hist).1, 0 < e.extreme := by
    intro e he
    obtain ⟨⟨k, d⟩, hp, hpe⟩ := List.mem_flatMap.mp he
    cases d with
    | malformed n => simp [analyze52] at hpe
    | ok closes =>
      cases closes with
      | nil => simp [analyze52] at hpe
      | cons c cs =>
        simp only [analyze52] at hpe
        split_ifs at hpe with hc
        · rw [List.mem_singleton.mp hpe]
          exact (hpos (k, SeriesData.ok (c :: cs)) hp c cs rfl).1
        · exact absurd hpe (List.not_mem_nil _)
  have hal : ∀ e ∈ (candidates52 hist).2, 0 < e.extreme := by
    intro e he
    obtain ⟨⟨k, d⟩, hp, hpe⟩ := List.mem_flatMap.mp he
    cases d with
    | malformed n => simp [analyze52] at hpe
    | ok closes =>
      cases closes with
      | nil => simp [analyze52] at hpe
      | cons c cs =>
        simp only [analyze52] at hpe
        split_ifs at hpe with hc
        · rw [List.mem_singleton.mp hpe]
          exact (hpos (k, SeriesData.ok (c :: cs)) hp c cs rfl).2
        · exact absurd hpe (List.not_mem_nil _)
  refine ⟨hbh, hal, ?_⟩
  obtain ⟨bh', h1⟩ := @sortByKey_ok_of_forall keyBH (candidates52 hist).1
    fun e he => ⟨e.price / e.extreme, by
      unfold keyBH fdiv
      rw [if_neg (ne_of_gt (hbh e he))]⟩
  obtain ⟨al', h2⟩ := @sortByKey_ok_of_forall keyAL (candidates52 hist).2
    fun e he => ⟨-(e.price / e.extreme), by
      unfold keyAL fdiv
      rw [if_neg (ne_of_gt (hal e he))]
      rfl⟩
  refine ⟨bh'.take 5, al'.take 5, ?_⟩
  unfold get_52week_analysis
  rw [h1, h2]

/-- Witness for C10 at the positive two-close series [1, 2]. -/
theorem c10_positive_divisors_witness :
    ∃ bh al, get_52week_analysis [("W", SeriesData.ok [1, 2])] = .ok (bh, al) :=
  (c10_positive_divisors [("W", SeriesData.ok [1, 2])] (by
    intro p hp c cs hpe
    rcases List.mem_cons.mp hp with h | h
    · rw [h] at hpe
      injection hpe with h2
      injection h2 with hc hcs
      subst hc
      subst hcs
      norm_num [List.foldl, max_def, min_def]
    · cases h)).2.2

/-! ### C6 -/

/-- The 30-day-return collection loop of `get_30day_returns` before
sorting: the returns appended in dict iteration order. -/
def returnsLoop (hist : HistData) : List RetEntry :=
  hist.filterMap fun p => analyze30 p.1 p.2

theorem get_30day_perm (hist : HistData) :
    (get_30day_returns hist).Perm (returnsLoop hist) :=
  List.perm_insertionSort retRel (returnsLoop hist)

/-- C6: a symbol is included by get_30day_returns only when its series has
at least 30 observations — a shorter series yields no entry for that
symbol, silently, and a series of length at least 30 yields exactly one
entry. -/
theorem c6_min_length_gate (hist : HistData)
    (hnd : (hist.map Prod.fst).Nodup) (sym : String) (closes : List ℚ)
    (hmem : (sym, SeriesData.ok closes) ∈ hist) :
    (closes.length < 30 → ∀ e ∈ get_30day_returns hist, e.symbol ≠ sym) ∧
    (30 ≤ closes.length →
      ((get_30day_returns hist).filter fun e => decide (e.symbol = sym)).length
        = 1) := by
  constructor
  · intro h29 e he hsym
    have hcol : e ∈ returnsLoop hist := (get_30day_perm hist).mem_iff.mp he
    obtain ⟨⟨k, d⟩, hp, hpe⟩ := List.mem_filterMap.mp hcol
    have hk : k = sym := by rw [← hsym, analyze30_symbol hpe]
    subst hk
    have hd : d = SeriesData.ok closes := nodup_key_unique hnd hp hmem
    subst hd
    rw [analyze30, if_pos h29] at hpe
    cases hpe
  · intro h30
    rw [← List.countP_eq_length_filter, (get_30day_perm hist).countP_eq,
      returnsLoop, countP_returns hnd hmem, analyze30,
      if_neg (Nat.not_lt.mpr h30)]
    rfl

/-- A length-30 constant series paired with a length-29 one. -/
def exH6 : HistData :=
  [("A", SeriesData.ok (List.replicate 30 (1 : ℚ))),
   ("B", SeriesData.ok (List.replicate 29 (1 : ℚ)))]

/-- Witness for C6: the length-30 series yields exactly one entry and the
length-29 series yields none. -/
theorem c6_min_length_gate_witness :
    ((get_30day_returns exH6).filter fun e => decide (e.symbol = "A")).length
      = 1 ∧
    (∀ e ∈ get_30day_returns exH6, e.symbol ≠ "B") :=
  ⟨(c6_min_length_gate exH6 (by decide) "A" (List.replicate 30 (1 : ℚ))
      (by decide)).2 (by decide),
   (c6_min_length_gate exH6 (by decide) "B" (List.replicate 29 (1 : ℚ))
      (by decide)).1 (by decide)⟩

/-! ### C7 -/

/-- C7: for a symbol whose series has at least 30 observations, the result
contains the entry (lastClose − close[length−30]) / close[length−30] × 100
for that symbol, every entry for that symbol equals that value, and the
whole result is sorted descending by returnPercent. -/
theorem c7_return_formula (hist : HistData)
    (hnd : (hist.map Prod.fst).Nodup) (sym : String) (closes : List ℚ)
    (hmem : (sym, SeriesData.ok closes) ∈ hist) (h30 : 30 ≤ closes.length) :
    (⟨sym, ((closes.getLastD 0 - closes.getD (closes.length - 30) 0) /
        closes.getD (closes.length - 30) 0) * 100⟩ : RetEntry) ∈
      get_30day_returns hist ∧
    (∀ e ∈ get_30day_returns hist, e.symbol = sym →
      e.ret = ((closes.getLastD 0 - closes.getD (closes.length - 30) 0) /
        closes.getD (closes.length - 30) 0) * 100) ∧
    List.Sorted retRel (get_30day_returns hist) := by
  have hana : analyze30 sym (SeriesData.ok closes) =
      some ⟨sym, ((closes.getLastD 0 - closes.getD (closes.length - 30) 0) /
        closes.getD (closes.length - 30) 0) * 100⟩ := by
    rw [analyze30, if_neg (Nat.not_lt.mpr h30)]
  refine ⟨?_, ?_, ?_⟩
  · exact (get_30day_perm hist).mem_iff.mpr
      (List.mem_filterMap.mpr ⟨(sym, SeriesData.ok closes), hmem, hana⟩)
  · intro e he hsym
    have hcol : e ∈ returnsLoop hist := (get_30day_perm hist).mem_iff.mp he
    obtain ⟨⟨k, d⟩, hp, hpe⟩ := List.mem_filterMap.mp hcol
    have hk : k = sym := by rw [← hsym, analyze30_symbol hpe]
    subst hk
    have hd : d = SeriesData.ok closes := nodup_key_unique hnd hp hmem
    subst hd
    rw [hana] at hpe
    injection hpe with h'
    rw [← h']
  · exact List.sorted_insertionSort retRel (returnsLoop hist)

/-- The spec example series: 35 daily closes whose 30th-from-end close is
100 and whose last close is 110. -/
def ex35 : List ℚ :=
  List.replicate 5 50 ++ (100 :: (List.replicate 28 105 ++ [110]))

/-- Witness for C7: on the 35-close example series the 30-day return entry
is exactly 10. -/
theorem c7_return_formula_witness :
    (⟨"A", 10⟩ : RetEntry) ∈ get_30day_returns [("A", SeriesData.ok ex35)] := by
  have h := (c7_return_formula [("A", SeriesData.ok ex35)] (by decide) "A" ex35
    (by decide) (by decide)).1
  have e1 : ex35.getLastD 0 = 110 := by decide
  have e2 : ex35.getD (ex35.length - 30) 0 = 100 := by decide
  rw [e1, e2] at h
  have e3 : (((110 : ℚ) - 100) / 100) * 100 = 10 := by norm_num
  rw [e3] at h
  exact h

/-! ### C9 -/

/-- C9: malformed per-symbol frames never abort the batch — both
historical analyses return exactly the result computed from the
well-formed frames alone, so a failing symbol is excluded and every other
symbol's result is still produced. -/
theorem c9_per_symbol_isolation (hist : HistData) :
    get_52week_analysis (hist.filter fun p => p.2.isOkData) =
      get_52week_analysis hist ∧
    get_30day_returns (hist.filter fun p => p.2.isOkData) =
      get_30day_returns hist := by
  have h1 : candidates52 (hist.filter fun p => p.2.isOkData) =
      candidates52 hist := by
    unfold candidates52
    rw [flatMap_filter_isOk (fun k d => (analyze52 k d).1) (fun k n => rfl) hist,
      flatMap_filter_isOk (fun k d => (analyze52 k d).2) (fun k n => rfl) hist]
  constructor
  · unfold get_52week_analysis
    rw [h1]
  · unfold get_30day_returns
    rw [filterMap_filter_isOk (fun k d => analyze30 k d) (fun k n => rfl) hist]
